import Mathlib

/-!
Shallow embedding of the tiled-inference core of `backend/detection/detector.py`:
axis-aligned box IoU (`_iou_xyxy`), classwise non-maximum suppression
(`_nms_classwise`), the tile scheduler and coordinate translation inside
`run_inference`, and the result packaging (`_package`).  Pixel coordinates and
confidences are modelled as rationals, image sizes as naturals, tile bounds as
integers.  The detector itself is an external collaborator and is modelled as
an oracle function from a tile to a detection list.
-/

namespace Detection

/-- An axis-aligned box `(x1, y1, x2, y2)`, as the 4-tuples used throughout
`detector.py`. -/
structure Box where
  x1 : ℚ
  y1 : ℚ
  x2 : ℚ
  y2 : ℚ
deriving DecidableEq, Repr

/-- One detection record `{class_name, confidence, bbox}` as produced by
`_boxes_from_result` and consumed by `_nms_classwise`. -/
structure Det where
  class_name : String
  confidence : ℚ
  bbox : Box
deriving DecidableEq, Repr

/-- Width of the intersection of two boxes: `max(0, min(ax2,bx2) - max(ax1,bx1))`
from `_iou_xyxy`. -/
def interW (a b : Box) : ℚ := max 0 (min a.x2 b.x2 - max a.x1 b.x1)

/-- Height of the intersection of two boxes: `max(0, min(ay2,by2) - max(ay1,by1))`
from `_iou_xyxy`. -/
def interH (a b : Box) : ℚ := max 0 (min a.y2 b.y2 - max a.y1 b.y1)

/-- Intersection area `iw * ih` from `_iou_xyxy`. -/
def interArea (a b : Box) : ℚ := interW a b * interH a b

/-- Single-box area `max(0, x2-x1) * max(0, y2-y1)` from `_iou_xyxy`. -/
def boxArea (a : Box) : ℚ := max 0 (a.x2 - a.x1) * max 0 (a.y2 - a.y1)

/-- `_iou_xyxy`: returns `0` when the intersection is empty, otherwise
`inter / (area_a + area_b - inter)` guarded by `denom > 0`. -/
def iou_xyxy (a b : Box) : ℚ :=
  if interArea a b ≤ 0 then 0
  else if 0 < boxArea a + boxArea b - interArea a b then
    interArea a b / (boxArea a + boxArea b - interArea a b)
  else 0

/-- One step of building the `by_cls` dictionary of `_nms_classwise`: append
pair `p` to the group keyed `c` (Python dict `setdefault(...).append(i)`),
creating the group at the end when the key is new. -/
def bumpIdx (m : List (String × List (ℕ × Det))) (c : String) (p : ℕ × Det) :
    List (String × List (ℕ × Det)) :=
  match m with
  | [] => [(c, [p])]
  | (c', l) :: rest =>
    if c' = c then (c', l ++ [p]) :: rest else (c', l) :: bumpIdx rest c p

/-- The `by_cls` dictionary of `_nms_classwise`: indices (paired with their
detections) grouped by `class_name`, keys in first-occurrence order. -/
def byCls (ps : List (ℕ × Det)) : List (String × List (ℕ × Det)) :=
  ps.foldl (fun m p => bumpIdx m p.2.class_name p) []

/-- Lookup of a class key in the grouped dictionary, defaulting to `[]`. -/
def lookupGroup (m : List (String × List (ℕ × Det))) (c : String) :
    List (ℕ × Det) :=
  match m with
  | [] => []
  | (c', l) :: rest => if c' = c then l else lookupGroup rest c

/-- Stable insertion by descending confidence: the new pair goes before every
pair of equal or lower confidence, matching Python's stable
`sorted(..., reverse=True)`. -/
def insertD (p : ℕ × Det) : List (ℕ × Det) → List (ℕ × Det)
  | [] => [p]
  | q :: qs =>
    if p.2.confidence < q.2.confidence then q :: insertD p qs else p :: q :: qs

/-- Stable sort by descending confidence, as
`sorted(idxs, key=lambda i: dets[i]["confidence"], reverse=True)`. -/
def sortD : List (ℕ × Det) → List (ℕ × Det)
  | [] => []
  | p :: ps => insertD p (sortD ps)

/-- The greedy keep/suppress loop of `_nms_classwise`: pop the front, keep it,
and drop every remaining pair whose IoU with it reaches the threshold
(`idxs = [j for j in idxs if _iou_xyxy(xi, dets[j].bbox) < iou_th]`).  The
loop removes at least one element per iteration, so fuel equal to the list
length suffices. -/
def greedyAux (th : ℚ) : ℕ → List (ℕ × Det) → List (ℕ × Det)
  | 0, _ => []
  | _ + 1, [] => []
  | fuel + 1, p :: ps =>
    p :: greedyAux th fuel (ps.filter fun q => iou_xyxy p.2.bbox q.2.bbox < th)

/-- The greedy loop run with enough fuel for its input. -/
def greedy (th : ℚ) (l : List (ℕ × Det)) : List (ℕ × Det) :=
  greedyAux th l.length l

/-- `_nms_classwise`: classwise NMS over global boxes.  Detections are
enumerated, grouped by class in first-occurrence order, each group is sorted
by descending confidence and filtered greedily, and the kept detections are
concatenated group by group. -/
def nms_classwise (dets : List Det) (iou_th : ℚ) : List Det :=
  (((byCls dets.enum).map fun g => greedy iou_th (sortD g.2)).flatten).map
    Prod.snd

/-- Truncation toward zero, the semantics of Python's `int()` applied to the
stride product in `run_inference`. -/
def ratTrunc (q : ℚ) : ℤ := if 0 ≤ q then ⌊q⌋ else ⌈q⌉

/-- The tile stride `step = max(1, int(tile_size * (1.0 - overlap)))` from the
tiled branch of `run_inference`. -/
def stepOf (tile_size : ℤ) (overlap : ℚ) : ℤ :=
  max 1 (ratTrunc ((tile_size : ℚ) * (1 - overlap)))

/-- The starting offsets `range(0, bound, step)`: multiples of `step` below
`bound`, in increasing order. -/
def gridStarts (bound step : ℕ) : List ℕ :=
  (List.range bound).filter fun t => t % step = 0

/-- A tile rectangle `(left, top, right, bottom)` produced by the scheduler. -/
structure Tile where
  left : ℤ
  top : ℤ
  right : ℤ
  bottom : ℤ
deriving DecidableEq, Repr

/-- The tile grid of `run_inference`: for each `top` and `left` multiple of
the stride, the tile clipped to the image by `min(left + tile_size, W)` and
`min(top + tile_size, H)`, skipping tiles with `right <= left or
bottom <= top`. -/
def tiles (W H : ℕ) (tile_size : ℤ) (overlap : ℚ) : List Tile :=
  (gridStarts H (stepOf tile_size overlap).toNat).flatMap fun (top : ℕ) =>
    (gridStarts W (stepOf tile_size overlap).toNat).filterMap fun (left : ℕ) =>
      if min ((left : ℤ) + tile_size) (W : ℤ) ≤ (left : ℤ) ∨
          min ((top : ℤ) + tile_size) (H : ℤ) ≤ (top : ℤ) then none
      else some ⟨left, top, min ((left : ℤ) + tile_size) (W : ℤ),
        min ((top : ℤ) + tile_size) (H : ℤ)⟩

/-- Coordinate translation of one detection from tile-local to global
coordinates: `d["bbox"] = (x1 + left, y1 + top, x2 + left, y2 + top)`;
class and confidence pass through. -/
def translate (left top : ℤ) (d : Det) : Det :=
  { d with bbox := ⟨d.bbox.x1 + left, d.bbox.y1 + top,
                    d.bbox.x2 + left, d.bbox.y2 + top⟩ }

/-- A packaged detection record with the expanded bbox dictionary built by
`_package`: corner coordinates plus derived width and height. -/
structure OutDet where
  class_name : String
  confidence : ℚ
  x1 : ℚ
  y1 : ℚ
  x2 : ℚ
  y2 : ℚ
  width : ℚ
  height : ℚ
deriving DecidableEq, Repr

/-- The response payload assembled by `_package`, without the timing field and
the optional annotated image, which are out of the embedded core. -/
structure Payload where
  width : ℕ
  height : ℕ
  detections : List OutDet
  counts : List (String × ℕ)
  total : ℕ
deriving DecidableEq, Repr

/-- One counting step `counts[c] = counts.get(c, 0) + 1` on the insertion
ordered counts dictionary. -/
def bumpCount (m : List (String × ℕ)) (c : String) : List (String × ℕ) :=
  match m with
  | [] => [(c, 1)]
  | (c', n) :: rest =>
    if c' = c then (c', n + 1) :: rest else (c', n) :: bumpCount rest c

/-- The counts dictionary built by the packaging loop of `_package`. -/
def countsOf (dets : List Det) : List (String × ℕ) :=
  dets.foldl (fun m d => bumpCount m d.class_name) []

/-- Dictionary lookup with default `0`, expressing `counts[c]`. -/
def lookupCount (m : List (String × ℕ)) (c : String) : ℕ :=
  match m with
  | [] => 0
  | (c', n) :: rest => if c' = c then n else lookupCount rest c

/-- `sum(counts.values())` from `_package`. -/
def sumCounts (m : List (String × ℕ)) : ℕ := m.foldl (fun s p => s + p.2) 0

/-- `_package`: expand each detection's bbox into the output record, build the
per-class counts and the total. -/
def package (W H : ℕ) (dets : List Det) : Payload :=
  { width := W
    height := H
    detections := dets.map fun d =>
      ⟨d.class_name, d.confidence, d.bbox.x1, d.bbox.y1, d.bbox.x2, d.bbox.y2,
        d.bbox.x2 - d.bbox.x1, d.bbox.y2 - d.bbox.y1⟩
    counts := countsOf dets
    total := sumCounts (countsOf dets) }

/-- The `tile` request parameter of `run_inference`: a string mode or a
non-string whose Python truthiness is a boolean. -/
inductive TileArg where
  | s (v : String)
  | b (v : Bool)
deriving DecidableEq, Repr

/-- Character-wise lowercasing, the semantics of Python's `tile.lower()` on
the mode strings compared against `"auto"`, `"1"`, `"true"`, `"yes"`. -/
def strLower (v : String) : String := ⟨v.data.map Char.toLower⟩

/-- The tiling decision of `run_inference`: for a string,
`(t == "auto" and max(W, H) > tile_size) or (t in ("1", "true", "yes"))`;
for a non-string, `bool(tile)`. -/
def tileFlag (tile : TileArg) (W H : ℕ) (tile_size : ℤ) : Bool :=
  match tile with
  | .s v =>
    let t := strLower v
    (t == "auto" && decide (tile_size < ((max W H : ℕ) : ℤ))) ||
      (t == "1" || t == "true" || t == "yes")
  | .b v => v

/-- `run_inference` with the external detector abstracted as an oracle from an
image region to its local-coordinate detections.  The untiled branch runs the
detector once on the full image; the tiled branch runs it per tile, translates
each tile's detections by the tile origin, merges everything with classwise
NMS, and packages the result. -/
def run_inference (detect : Tile → List Det) (W H : ℕ) (tile : TileArg)
    (tile_size : ℤ) (overlap nms_iou : ℚ) : Payload :=
  if tileFlag tile W H tile_size then
    let all_dets := (tiles W H tile_size overlap).flatMap fun t =>
      (detect t).map (translate t.left t.top)
    package W H (nms_classwise all_dets nms_iou)
  else
    package W H (nms_classwise (detect ⟨0, 0, (W : ℤ), (H : ℤ)⟩) nms_iou)

theorem interW_symm (a b : Box) : interW a b = interW b a := by
  simp [interW, min_comm, max_comm]

theorem interH_symm (a b : Box) : interH a b = interH b a := by
  simp [interH, min_comm, max_comm]

theorem interArea_symm (a b : Box) : interArea a b = interArea b a := by
  simp [interArea, interW_symm, interH_symm]

theorem interArea_nonneg (a b : Box) : 0 ≤ interArea a b :=
  mul_nonneg (le_max_left _ _) (le_max_left _ _)

theorem boxArea_nonneg (a : Box) : 0 ≤ boxArea a :=
  mul_nonneg (le_max_left _ _) (le_max_left _ _)

theorem interArea_le_left (a b : Box) : interArea a b ≤ boxArea a := by
  have hw : interW a b ≤ max 0 (a.x2 - a.x1) := by
    apply max_le (le_max_left _ _)
    exact le_max_of_le_right (by
      have h1 : min a.x2 b.x2 ≤ a.x2 := min_le_left _ _
      have h2 : a.x1 ≤ max a.x1 b.x1 := le_max_left _ _
      linarith)
  have hh : interH a b ≤ max 0 (a.y2 - a.y1) := by
    apply max_le (le_max_left _ _)
    exact le_max_of_le_right (by
      have h1 : min a.y2 b.y2 ≤ a.y2 := min_le_left _ _
      have h2 : a.y1 ≤ max a.y1 b.y1 := le_max_left _ _
      linarith)
  calc interArea a b = interW a b * interH a b := rfl
    _ ≤ max 0 (a.x2 - a.x1) * interH a b :=
        mul_le_mul_of_nonneg_right hw (le_max_left _ _)
    _ ≤ max 0 (a.x2 - a.x1) * max 0 (a.y2 - a.y1) :=
        mul_le_mul_of_nonneg_left hh (le_max_left _ _)

theorem interArea_le_right (a b : Box) : interArea a b ≤ boxArea b := by
  rw [interArea_symm]; exact interArea_le_left b a

theorem iou_nonneg (a b : Box) : 0 ≤ iou_xyxy a b := by
  unfold iou_xyxy
  split
  · exact le_refl 0
  · split
    · exact div_nonneg (interArea_nonneg a b) (by linarith)
    · exact le_refl 0

theorem iou_le_one (a b : Box) : iou_xyxy a b ≤ 1 := by
  unfold iou_xyxy
  split
  · exact zero_le_one
  · rename_i h
    split
    · rename_i hd
      rw [div_le_one hd]
      have h1 := interArea_le_right a b
      have h2 := interArea_le_left a b
      linarith
    · exact zero_le_one

theorem iou_symm (a b : Box) : iou_xyxy a b = iou_xyxy b a := by
  unfold iou_xyxy
  rw [interArea_symm a b]
  have h : boxArea a + boxArea b = boxArea b + boxArea a := add_comm _ _
  rw [h]

theorem iou_self (a : Box) (hx : a.x1 < a.x2) (hy : a.y1 < a.y2) :
    iou_xyxy a a = 1 := by
  have hw : interW a a = a.x2 - a.x1 := by
    unfold interW
    rw [min_self, max_self, max_eq_right (by linarith)]
  have hh : interH a a = a.y2 - a.y1 := by
    unfold interH
    rw [min_self, max_self, max_eq_right (by linarith)]
  have harea : boxArea a = (a.x2 - a.x1) * (a.y2 - a.y1) := by
    unfold boxArea
    rw [max_eq_right (by linarith : (0:ℚ) ≤ a.x2 - a.x1),
      max_eq_right (by linarith : (0:ℚ) ≤ a.y2 - a.y1)]
  have hia : interArea a a = (a.x2 - a.x1) * (a.y2 - a.y1) := by
    simp [interArea, hw, hh]
  have hpos : 0 < (a.x2 - a.x1) * (a.y2 - a.y1) :=
    mul_pos (by linarith) (by linarith)
  unfold iou_xyxy
  rw [hia, harea]
  rw [if_neg (by linarith), if_pos (by linarith)]
  have : (a.x2 - a.x1) * (a.y2 - a.y1) + (a.x2 - a.x1) * (a.y2 - a.y1) -
      (a.x2 - a.x1) * (a.y2 - a.y1) = (a.x2 - a.x1) * (a.y2 - a.y1) := by ring
  rw [this, div_self (ne_of_gt hpos)]

theorem iou_of_disjoint (a b : Box)
    (h : min a.x2 b.x2 ≤ max a.x1 b.x1 ∨ min a.y2 b.y2 ≤ max a.y1 b.y1) :
    iou_xyxy a b = 0 := by
  have hz : interArea a b ≤ 0 := by
    rcases h with h | h
    · have hw : interW a b = 0 := by
        unfold interW
        exact max_eq_left (sub_nonpos.mpr h)
      simp [interArea, hw]
    · have hh : interH a b = 0 := by
        unfold interH
        exact max_eq_left (sub_nonpos.mpr h)
      simp [interArea, hh]
  simp [iou_xyxy, hz]

theorem iou_of_union_zero (a b : Box)
    (h : boxArea a + boxArea b - interArea a b = 0) :
    iou_xyxy a b = 0 := by
  unfold iou_xyxy
  split
  · rfl
  · rw [if_neg (by rw [h]; exact lt_irrefl 0)]

theorem snd_mem_of_mem_enumFrom {l : List Det} {n : ℕ} {p : ℕ × Det}
    (h : p ∈ List.enumFrom n l) : p.2 ∈ l := by
  induction l generalizing n with
  | nil => simp [List.enumFrom] at h
  | cons x xs ih =>
    simp only [List.enumFrom, List.mem_cons] at h
    rcases h with h | h
    · subst h; exact List.mem_cons_self _ _
    · exact List.mem_cons_of_mem _ (ih h)

theorem exists_fst_mem_enumFrom {l : List Det} {a : Det} (h : a ∈ l) (n : ℕ) :
    ∃ i, (i, a) ∈ List.enumFrom n l := by
  induction l generalizing n with
  | nil => simp at h
  | cons x xs ih =>
    rcases List.mem_cons.1 h with rfl | h
    · exact ⟨n, List.mem_cons_self _ _⟩
    · obtain ⟨i, hi⟩ := ih h (n + 1)
      exact ⟨i, List.mem_cons_of_mem _ hi⟩

theorem le_fst_of_mem_enumFrom {l : List Det} {n : ℕ} {p : ℕ × Det}
    (h : p ∈ List.enumFrom n l) : n ≤ p.1 := by
  induction l generalizing n with
  | nil => simp [List.enumFrom] at h
  | cons x xs ih =>
    simp only [List.enumFrom, List.mem_cons] at h
    rcases h with h | h
    · subst h; exact le_refl _
    · exact Nat.le_of_succ_le (ih h)

theorem pairwise_fst_lt_enumFrom (l : List Det) (n : ℕ) :
    List.Pairwise (fun p q => p.1 < q.1) (List.enumFrom n l) := by
  induction l generalizing n with
  | nil => simp [List.enumFrom]
  | cons x xs ih =>
    simp only [List.enumFrom]
    exact List.Pairwise.cons
      (fun q hq => Nat.lt_of_succ_le (le_fst_of_mem_enumFrom hq)) (ih (n + 1))

theorem pairwise_fst_lt_enum (l : List Det) :
    List.Pairwise (fun p q => p.1 < q.1) l.enum :=
  pairwise_fst_lt_enumFrom l 0

theorem lookupGroup_bumpIdx_self (m : List (String × List (ℕ × Det)))
    (c : String) (p : ℕ × Det) :
    lookupGroup (bumpIdx m c p) c = lookupGroup m c ++ [p] := by
  induction m with
  | nil => simp [bumpIdx, lookupGroup]
  | cons g rest ih =>
    obtain ⟨c', l⟩ := g
    by_cases h : c' = c
    · subst h
      simp [bumpIdx, lookupGroup]
    · simp [bumpIdx, lookupGroup, h, ih]

theorem lookupGroup_bumpIdx_ne (m : List (String × List (ℕ × Det)))
    (c c'' : String) (p : ℕ × Det) (hne : c ≠ c'') :
    lookupGroup (bumpIdx m c p) c'' = lookupGroup m c'' := by
  induction m with
  | nil => simp [bumpIdx, lookupGroup, hne]
  | cons g rest ih =>
    obtain ⟨c', l⟩ := g
    by_cases h : c' = c
    · subst h
      simp [bumpIdx, lookupGroup, hne]
    · simp only [bumpIdx, if_neg h, lookupGroup]
      by_cases h2 : c' = c''
      · simp [h2]
      · simp [h2, ih]

theorem keys_bumpIdx (m : List (String × List (ℕ × Det))) (c : String)
    (p : ℕ × Det) :
    (bumpIdx m c p).map Prod.fst =
      if c ∈ m.map Prod.fst then m.map Prod.fst else m.map Prod.fst ++ [c] := by
  induction m with
  | nil => simp [bumpIdx]
  | cons g rest ih =>
    obtain ⟨c', l⟩ := g
    by_cases h : c' = c
    · subst h
      simp [bumpIdx]
    · have hne : c ≠ c' := fun hc => h hc.symm
      simp only [bumpIdx, if_neg h, List.map_cons, List.mem_cons]
      rw [ih]
      by_cases hc : c ∈ rest.map Prod.fst
      · simp [hc, hne]
      · simp [hc, hne]

theorem byCls_append (ps : List (ℕ × Det)) (p : ℕ × Det) :
    byCls (ps ++ [p]) = bumpIdx (byCls ps) p.2.class_name p := by
  simp [byCls, List.foldl_append]

theorem lookupGroup_byCls (ps : List (ℕ × Det)) (c : String) :
    lookupGroup (byCls ps) c = ps.filter fun p => p.2.class_name = c := by
  induction ps using List.reverseRecOn with
  | nil => simp [byCls, lookupGroup]
  | append_singleton ps p ih =>
    rw [byCls_append, List.filter_append]
    by_cases h : p.2.class_name = c
    · rw [h, lookupGroup_bumpIdx_self, ih]
      simp [h]
    · rw [lookupGroup_bumpIdx_ne _ _ _ _ h, ih]
      simp [h]

theorem mem_keys_byCls (ps : List (ℕ × Det)) (c : String) :
    c ∈ (byCls ps).map Prod.fst ↔ ∃ p ∈ ps, p.2.class_name = c := by
  induction ps using List.reverseRecOn with
  | nil => simp [byCls]
  | append_singleton ps p ih =>
    rw [byCls_append, keys_bumpIdx]
    by_cases hc : p.2.class_name ∈ (byCls ps).map Prod.fst
    · rw [if_pos hc]
      rw [ih]
      constructor
      · rintro ⟨q, hq, hqc⟩
        exact ⟨q, List.mem_append_left _ hq, hqc⟩
      · rintro ⟨q, hq, hqc⟩
        rcases List.mem_append.1 hq with hq | hq
        · exact ⟨q, hq, hqc⟩
        · rcases List.mem_singleton.1 hq with rfl
          rw [hqc] at hc
          exact ih.1 hc
    · rw [if_neg hc, List.mem_append, ih]
      constructor
      · rintro (⟨q, hq, hqc⟩ | hs)
        · exact ⟨q, List.mem_append_left _ hq, hqc⟩
        · rcases List.mem_singleton.1 hs with rfl
          exact ⟨p, List.mem_append_right _ (List.mem_singleton_self _), rfl⟩
      · rintro ⟨q, hq, hqc⟩
        rcases List.mem_append.1 hq with hq | hq
        · exact Or.inl ⟨q, hq, hqc⟩
        · rcases List.mem_singleton.1 hq with rfl
          exact Or.inr (List.mem_singleton.2 hqc.symm)

theorem keys_nodup_byCls (ps : List (ℕ × Det)) :
    ((byCls ps).map Prod.fst).Nodup := by
  induction ps using List.reverseRecOn with
  | nil => simp [byCls]
  | append_singleton ps p ih =>
    rw [byCls_append, keys_bumpIdx]
    by_cases hc : p.2.class_name ∈ (byCls ps).map Prod.fst
    · rw [if_pos hc]; exact ih
    · rw [if_neg hc]
      refine List.Nodup.append ih (List.nodup_singleton _) ?_
      intro a ha hs
      rcases List.mem_singleton.1 hs with rfl
      exact hc ha

theorem lookupGroup_eq_of_mem {m : List (String × List (ℕ × Det))}
    (hnd : (m.map Prod.fst).Nodup) {c : String} {l : List (ℕ × Det)}
    (h : (c, l) ∈ m) : lookupGroup m c = l := by
  induction m with
  | nil => simp at h
  | cons g rest ih =>
    obtain ⟨c', l'⟩ := g
    rcases List.mem_cons.1 h with h | h
    · injection h with h1 h2
      subst h1
      subst h2
      simp [lookupGroup]
    · have hc : c' ≠ c := by
        rintro rfl
        have : c' ∈ rest.map Prod.fst := List.mem_map.2 ⟨(c', l), h, rfl⟩
        simp only [List.map_cons, List.nodup_cons] at hnd
        exact hnd.1 this
      simp only [lookupGroup, if_neg hc]
      exact ih (by simp only [List.map_cons, List.nodup_cons] at hnd; exact hnd.2) h

theorem lookup_mem_of_mem_keys {m : List (String × List (ℕ × Det))} {c : String}
    (h : c ∈ m.map Prod.fst) : (c, lookupGroup m c) ∈ m := by
  induction m with
  | nil => simp at h
  | cons g rest ih =>
    obtain ⟨c', l'⟩ := g
    by_cases hc : c' = c
    · subst hc
      simp [lookupGroup]
    · simp only [List.map_cons, List.mem_cons] at h
      rcases h with h | h
      · exact absurd h.symm hc
      · simp only [lookupGroup, if_neg hc]
        exact List.mem_cons_of_mem _ (ih h)

theorem insertD_perm (p : ℕ × Det) (l : List (ℕ × Det)) :
    (insertD p l).Perm (p :: l) := by
  induction l with
  | nil => simp [insertD]
  | cons q qs ih =>
    by_cases h : p.2.confidence < q.2.confidence
    · simp only [insertD, if_pos h]
      exact (List.Perm.cons q ih).trans (List.Perm.swap p q qs)
    · simp [insertD, if_neg h]

theorem sortD_perm (l : List (ℕ × Det)) : (sortD l).Perm l := by
  induction l with
  | nil => simp [sortD]
  | cons p ps ih =>
    exact ((insertD_perm p (sortD ps)).trans (List.Perm.cons _ ih))

theorem insertD_sorted (p : ℕ × Det) {l : List (ℕ × Det)}
    (hl : List.Pairwise (fun a b => b.2.confidence ≤ a.2.confidence) l) :
    List.Pairwise (fun a b => b.2.confidence ≤ a.2.confidence) (insertD p l) := by
  induction l with
  | nil => simp [insertD]
  | cons q qs ih =>
    rcases List.pairwise_cons.1 hl with ⟨hq, hqs⟩
    by_cases h : p.2.confidence < q.2.confidence
    · simp only [insertD, if_pos h]
      refine List.pairwise_cons.2 ⟨?_, ih hqs⟩
      intro r hr
      have : r ∈ p :: qs := (insertD_perm p qs).mem_iff.1 hr
      rcases List.mem_cons.1 this with rfl | hrq
      · exact le_of_lt h
      · exact hq r hrq
    · simp only [insertD, if_neg h]
      refine List.pairwise_cons.2 ⟨?_, hl⟩
      intro r hr
      rcases List.mem_cons.1 hr with rfl | hrq
      · exact not_lt.1 h
      · exact le_trans (hq r hrq) (not_lt.1 h)

theorem sortD_sorted (l : List (ℕ × Det)) :
    List.Pairwise (fun a b => b.2.confidence ≤ a.2.confidence) (sortD l) := by
  induction l with
  | nil => simp [sortD]
  | cons p ps ih => exact insertD_sorted p ih

theorem sortD_head_argmax :
    ∀ (l : List (ℕ × Det)), l ≠ [] →
    List.Pairwise (fun p q => p.1 < q.1) l →
    ∃ k r, sortD l = k :: r ∧ k ∈ l ∧
      (∀ j ∈ l, j.2.confidence ≤ k.2.confidence) ∧
      (∀ j ∈ l, j.2.confidence = k.2.confidence → k.1 ≤ j.1) := by
  intro l
  induction l with
  | nil => intro h; exact absurd rfl h
  | cons x xs ih =>
    intro _ hpw
    rcases List.pairwise_cons.1 hpw with ⟨hx, hxs⟩
    match xs, ih with
    | [], _ =>
      exact ⟨x, [], rfl, List.mem_singleton_self _, by simp, by simp⟩
    | y :: ys, ih =>
      obtain ⟨k, r, hkr, hkmem, hmax, hties⟩ := ih (by simp) hxs
      show ∃ k' r', insertD x (sortD (y :: ys)) = k' :: r' ∧ _
      rw [hkr]
      by_cases h : x.2.confidence < k.2.confidence
      · refine ⟨k, insertD x r, by simp [insertD, if_pos h], List.mem_cons_of_mem _ hkmem, ?_, ?_⟩
        · intro j hj
          rcases List.mem_cons.1 hj with rfl | hj
          · exact le_of_lt h
          · exact hmax j hj
        · intro j hj hje
          rcases List.mem_cons.1 hj with rfl | hj
          · exact absurd hje (ne_of_lt h)
          · exact hties j hj hje
      · refine ⟨x, k :: r, by simp [insertD, if_neg h], List.mem_cons_self _ _, ?_, ?_⟩
        · intro j hj
          rcases List.mem_cons.1 hj with rfl | hj
          · exact le_refl _
          · exact le_trans (hmax j hj) (not_lt.1 h)
        · intro j hj _
          rcases List.mem_cons.1 hj with rfl | hj
          · exact le_refl _
          · exact le_of_lt (hx j hj)

theorem mem_of_mem_greedyAux {th : ℚ} :
    ∀ {fuel : ℕ} {l : List (ℕ × Det)} {q : ℕ × Det},
    q ∈ greedyAux th fuel l → q ∈ l := by
  intro fuel
  induction fuel with
  | zero => intro l q h; simp [greedyAux] at h
  | succ fuel ih =>
    intro l q h
    match l with
    | [] => simp [greedyAux] at h
    | p :: ps =>
      simp only [greedyAux, List.mem_cons] at h
      rcases h with rfl | h
      · exact List.mem_cons_self _ _
      · exact List.mem_cons_of_mem _ (List.mem_of_mem_filter (ih h))

theorem greedyAux_pairwise_iou {th : ℚ} :
    ∀ (fuel : ℕ) (l : List (ℕ × Det)),
    List.Pairwise (fun p q => iou_xyxy p.2.bbox q.2.bbox < th)
      (greedyAux th fuel l) := by
  intro fuel
  induction fuel with
  | zero => intro l; simp [greedyAux]
  | succ fuel ih =>
    intro l
    match l with
    | [] => simp [greedyAux]
    | p :: ps =>
      simp only [greedyAux]
      refine List.pairwise_cons.2 ⟨?_, ih _⟩
      intro q hq
      have := mem_of_mem_greedyAux hq
      have := List.of_mem_filter this
      exact of_decide_eq_true this

theorem greedyAux_cover {th : ℚ} :
    ∀ (fuel : ℕ) (l : List (ℕ × Det)), l.length ≤ fuel →
    List.Pairwise (fun a b => b.2.confidence ≤ a.2.confidence) l →
    ∀ x ∈ l, x ∈ greedyAux th fuel l ∨
      ∃ e ∈ greedyAux th fuel l, x.2.confidence ≤ e.2.confidence ∧
        th ≤ iou_xyxy e.2.bbox x.2.bbox := by
  intro fuel
  induction fuel with
  | zero =>
    intro l hlen _ x hx
    rcases List.length_eq_zero.1 (Nat.le_zero.1 hlen) with rfl
    simp at hx
  | succ fuel ih =>
    intro l hlen hsort x hx
    match l with
    | [] => simp at hx
    | p :: ps =>
      rcases List.pairwise_cons.1 hsort with ⟨hp, hps⟩
      simp only [greedyAux]
      rcases List.mem_cons.1 hx with rfl | hx
      · exact Or.inl (List.mem_cons_self _ _)
      · by_cases hiou : iou_xyxy p.2.bbox x.2.bbox < th
        · have hxf : x ∈ ps.filter fun q => iou_xyxy p.2.bbox q.2.bbox < th :=
            List.mem_filter.2 ⟨hx, decide_eq_true hiou⟩
          have hlen' : (ps.filter fun q => iou_xyxy p.2.bbox q.2.bbox < th).length ≤ fuel :=
            le_trans (List.length_filter_le _ _) (Nat.le_of_succ_le_succ hlen)
          have hsort' : List.Pairwise (fun a b => b.2.confidence ≤ a.2.confidence)
              (ps.filter fun q => iou_xyxy p.2.bbox q.2.bbox < th) :=
            List.Pairwise.sublist (List.filter_sublist ps) hps
          rcases ih _ hlen' hsort' x hxf with h | ⟨e, he, hec, hei⟩
          · exact Or.inl (List.mem_cons_of_mem _ h)
          · exact Or.inr ⟨e, List.mem_cons_of_mem _ he, hec, hei⟩
        · exact Or.inr ⟨p, List.mem_cons_self _ _, hp x hx, not_lt.1 hiou⟩

theorem greedyAux_eq_self {th : ℚ} (hth : 1 < th) :
    ∀ (fuel : ℕ) (l : List (ℕ × Det)), l.length ≤ fuel →
    greedyAux th fuel l = l := by
  intro fuel
  induction fuel with
  | zero =>
    intro l hlen
    rcases List.length_eq_zero.1 (Nat.le_zero.1 hlen) with rfl
    rfl
  | succ fuel ih =>
    intro l hlen
    match l with
    | [] => rfl
    | p :: ps =>
      simp only [greedyAux]
      have hf : (ps.filter fun q => iou_xyxy p.2.bbox q.2.bbox < th) = ps := by
        apply List.filter_eq_self.2
        intro q _
        exact decide_eq_true (lt_of_le_of_lt (iou_le_one _ _) hth)
      rw [hf, ih ps (Nat.le_of_succ_le_succ hlen)]

theorem filter_iou_lt_zero (p : ℕ × Det) (ps : List (ℕ × Det)) :
    (ps.filter fun q => iou_xyxy p.2.bbox q.2.bbox < 0) = [] := by
  apply List.filter_eq_nil_iff.2
  intro q _
  simp only [decide_eq_true_eq, not_lt]
  exact iou_nonneg _ _

theorem greedy_zero_eq_head (k : ℕ × Det) (r : List (ℕ × Det)) :
    greedy 0 (k :: r) = [k] := by
  simp only [greedy, List.length_cons, greedyAux, filter_iou_lt_zero]
  match r.length with
  | 0 => rfl
  | n + 1 => rfl

theorem mem_nms_iff {dets : List Det} {th : ℚ} {d : Det} :
    d ∈ nms_classwise dets th ↔
      ∃ g ∈ byCls dets.enum, ∃ p ∈ greedy th (sortD g.2), p.2 = d := by
  unfold nms_classwise
  constructor
  · intro h
    obtain ⟨p, hp, hpd⟩ := List.mem_map.1 h
    obtain ⟨l, hl, hpl⟩ := List.mem_flatten.1 hp
    obtain ⟨g, hg, hgl⟩ := List.mem_map.1 hl
    exact ⟨g, hg, p, hgl ▸ hpl, hpd⟩
  · rintro ⟨g, hg, p, hp, hpd⟩
    refine List.mem_map.2 ⟨p, ?_, hpd⟩
    exact List.mem_flatten.2 ⟨greedy th (sortD g.2), List.mem_map.2 ⟨g, hg, rfl⟩, hp⟩

theorem group_eq_filter {ps : List (ℕ × Det)} {g : String × List (ℕ × Det)}
    (hg : g ∈ byCls ps) :
    g.2 = ps.filter fun p => p.2.class_name = g.1 := by
  obtain ⟨c, l⟩ := g
  have := lookupGroup_eq_of_mem (keys_nodup_byCls ps) hg
  rw [← this, lookupGroup_byCls]

theorem mem_enum_of_mem_group {ps : List (ℕ × Det)} {g : String × List (ℕ × Det)}
    (hg : g ∈ byCls ps) {p : ℕ × Det} (hp : p ∈ g.2) :
    p ∈ ps ∧ p.2.class_name = g.1 := by
  rw [group_eq_filter hg] at hp
  have h1 := List.mem_of_mem_filter hp
  have h2 := List.of_mem_filter hp
  exact ⟨h1, of_decide_eq_true h2⟩

theorem mem_sortD_group {g : String × List (ℕ × Det)} {th : ℚ} {p : ℕ × Det}
    (hp : p ∈ greedy th (sortD g.2)) : p ∈ g.2 :=
  (sortD_perm g.2).mem_iff.1 (mem_of_mem_greedyAux hp)

theorem nms_subset {dets : List Det} {th : ℚ} :
    ∀ d ∈ nms_classwise dets th, d ∈ dets := by
  intro d hd
  obtain ⟨g, hg, p, hp, hpd⟩ := mem_nms_iff.1 hd
  have hmem := (mem_enum_of_mem_group hg (mem_sortD_group hp)).1
  have : p.2 ∈ dets := snd_mem_of_mem_enumFrom hmem
  exact hpd ▸ this

theorem nms_pairwise (dets : List Det) (th : ℚ) :
    List.Pairwise (fun d e => d.class_name = e.class_name →
      iou_xyxy d.bbox e.bbox < th) (nms_classwise dets th) := by
  unfold nms_classwise
  rw [List.pairwise_map, List.pairwise_flatten]
  constructor
  · intro l hl
    obtain ⟨g, _, hgl⟩ := List.mem_map.1 hl
    subst hgl
    have hpw : List.Pairwise (fun p q => iou_xyxy p.2.bbox q.2.bbox < th)
        (greedy th (sortD g.2)) := greedyAux_pairwise_iou _ _
    exact hpw.imp fun h => fun (_ : _ = _) => h
  · rw [List.pairwise_map]
    have hnd : List.Pairwise (fun g1 g2 => g1.1 ≠ g2.1) (byCls dets.enum) := by
      have h := keys_nodup_byCls dets.enum
      rw [List.Nodup, List.pairwise_map] at h
      exact h
    refine List.Pairwise.imp_of_mem ?_ hnd
    intro g1 g2 hg1 hg2 hne x hx y hy hcls
    have hx1 := (mem_enum_of_mem_group hg1 (mem_sortD_group hx)).2
    have hy1 := (mem_enum_of_mem_group hg2 (mem_sortD_group hy)).2
    exact absurd (hx1 ▸ hy1 ▸ hcls) hne

theorem nms_cover {dets : List Det} {th : ℚ} :
    ∀ d ∈ dets, d ∉ nms_classwise dets th →
      ∃ e ∈ nms_classwise dets th, e.class_name = d.class_name ∧
        th ≤ iou_xyxy e.bbox d.bbox ∧ d.confidence ≤ e.confidence := by
  intro d hd hnot
  obtain ⟨i, hi⟩ := exists_fst_mem_enumFrom hd 0
  have hi' : (i, d) ∈ dets.enum := hi
  have hkey : d.class_name ∈ (byCls dets.enum).map Prod.fst :=
    (mem_keys_byCls _ _).2 ⟨(i, d), hi', rfl⟩
  have hgmem : (d.class_name, lookupGroup (byCls dets.enum) d.class_name) ∈
      byCls dets.enum := lookup_mem_of_mem_keys hkey
  set gl := lookupGroup (byCls dets.enum) d.class_name with hgl_def
  have hgl : gl = dets.enum.filter fun p => p.2.class_name = d.class_name := by
    rw [hgl_def, lookupGroup_byCls]
  have hpg : (i, d) ∈ gl := by
    rw [hgl]
    exact List.mem_filter.2 ⟨hi', decide_eq_true rfl⟩
  have hcov := @greedyAux_cover th (sortD gl).length (sortD gl) (le_refl _)
    (sortD_sorted gl) (i, d) ((sortD_perm gl).mem_iff.2 hpg)
  rcases hcov with hkept | ⟨e, he, hec, hei⟩
  · exact absurd
      (mem_nms_iff.2 ⟨(d.class_name, gl), hgmem, (i, d), hkept, rfl⟩) hnot
  · have heout : e.2 ∈ nms_classwise dets th :=
      mem_nms_iff.2 ⟨(d.class_name, gl), hgmem, e, he, rfl⟩
    have hecls : e.2.class_name = d.class_name :=
      (mem_enum_of_mem_group hgmem (mem_sortD_group he)).2
    exact ⟨e.2, heout, hecls, hei, hec⟩

theorem nms_zero_classes_nodup (dets : List Det) :
    ((nms_classwise dets 0).map (fun d => d.class_name)).Nodup := by
  rw [List.Nodup, List.pairwise_map]
  refine (nms_pairwise dets 0).imp ?_
  intro a b h hcls
  exact absurd (h hcls) (not_lt.2 (iou_nonneg _ _))

theorem flatten_snd_bumpIdx (m : List (String × List (ℕ × Det))) (c : String)
    (p : ℕ × Det) :
    ((bumpIdx m c p).map Prod.snd).flatten.Perm
      ((m.map Prod.snd).flatten ++ [p]) := by
  induction m with
  | nil => simp [bumpIdx]
  | cons g rest ih =>
    obtain ⟨c', l⟩ := g
    by_cases h : c' = c
    · subst h
      have hb : bumpIdx ((c', l) :: rest) c' p = (c', l ++ [p]) :: rest := by
        simp [bumpIdx]
      rw [hb]
      simp only [List.map_cons, List.flatten_cons]
      rw [List.append_assoc, List.append_assoc]
      exact List.Perm.append_left l List.perm_append_comm
    · simp only [bumpIdx, if_neg h, List.map_cons, List.flatten_cons]
      rw [List.append_assoc]
      exact List.Perm.append_left l ih

theorem flatten_snd_byCls (ps : List (ℕ × Det)) :
    ((byCls ps).map Prod.snd).flatten.Perm ps := by
  induction ps using List.reverseRecOn with
  | nil => simp [byCls]
  | append_singleton ps p ih =>
    rw [byCls_append]
    exact (flatten_snd_bumpIdx _ _ _).trans (ih.append (List.Perm.refl [p]))

theorem flatten_map_perm (m : List (String × List (ℕ × Det)))
    (f : String × List (ℕ × Det) → List (ℕ × Det))
    (h : ∀ g ∈ m, (f g).Perm g.2) :
    ((m.map f).flatten).Perm ((m.map Prod.snd).flatten) := by
  induction m with
  | nil => simp
  | cons g rest ih =>
    simp only [List.map_cons, List.flatten_cons]
    exact (h g (List.mem_cons_self _ _)).append
      (ih fun g' hg' => h g' (List.mem_cons_of_mem _ hg'))

theorem enum_map_snd (l : List Det) : l.enum.map Prod.snd = l :=
  List.enumFrom_map_snd 0 l

theorem nms_perm_of_one_lt (dets : List Det) {th : ℚ} (hth : 1 < th) :
    (nms_classwise dets th).Perm dets := by
  unfold nms_classwise
  have h1 : ∀ g ∈ byCls dets.enum, (greedy th (sortD g.2)).Perm g.2 := by
    intro g _
    have he := greedyAux_eq_self hth (sortD g.2).length (sortD g.2) (le_refl _)
    rw [greedy, he]
    exact sortD_perm g.2
  have h2 := flatten_map_perm (byCls dets.enum) _ h1
  have h3 := (h2.trans (flatten_snd_byCls dets.enum)).map Prod.snd
  rw [enum_map_snd] at h3
  exact h3

theorem nms_one_le_cover {dets : List Det} {th : ℚ} (hth : 1 ≤ th) :
    ∀ d ∈ dets, d ∉ nms_classwise dets th →
      ∃ e ∈ nms_classwise dets th, e.class_name = d.class_name ∧
        iou_xyxy e.bbox d.bbox = 1 := by
  intro d hd hnot
  obtain ⟨e, he, hcls, hiou, _⟩ := nms_cover d hd hnot
  exact ⟨e, he, hcls, le_antisymm (iou_le_one _ _) (le_trans hth hiou)⟩

theorem nms_zero_class_present {dets : List Det} {d : Det} (hd : d ∈ dets) :
    ∃ e ∈ nms_classwise dets 0, e.class_name = d.class_name := by
  obtain ⟨i, hi⟩ := exists_fst_mem_enumFrom hd 0
  have hi' : (i, d) ∈ dets.enum := hi
  have hkey : d.class_name ∈ (byCls dets.enum).map Prod.fst :=
    (mem_keys_byCls _ _).2 ⟨(i, d), hi', rfl⟩
  have hgmem := lookup_mem_of_mem_keys hkey
  set gl := lookupGroup (byCls dets.enum) d.class_name with hgl_def
  have hpg : (i, d) ∈ gl := by
    rw [hgl_def, lookupGroup_byCls]
    exact List.mem_filter.2 ⟨hi', decide_eq_true rfl⟩
  have hsne : sortD gl ≠ [] := by
    intro h
    have hmem : (i, d) ∈ sortD gl := (sortD_perm gl).mem_iff.2 hpg
    rw [h] at hmem
    simp at hmem
  obtain ⟨k, r, hkr⟩ := List.exists_cons_of_ne_nil hsne
  have hk_in : k ∈ gl := (sortD_perm gl).mem_iff.1 (hkr ▸ List.mem_cons_self k r)
  have hkout : k.2 ∈ nms_classwise dets 0 := by
    refine mem_nms_iff.2 ⟨(d.class_name, gl), hgmem, k, ?_, rfl⟩
    show k ∈ greedy 0 (sortD gl)
    rw [hkr, greedy_zero_eq_head]
    exact List.mem_singleton_self k
  exact ⟨k.2, hkout, (mem_enum_of_mem_group hgmem hk_in).2⟩

theorem nms_zero_argmax (dets : List Det) :
    ∀ d ∈ nms_classwise dets 0, ∃ i, (i, d) ∈ dets.enum ∧
      ∀ j e, (j, e) ∈ dets.enum → e.class_name = d.class_name →
        e.confidence ≤ d.confidence ∧ (e.confidence = d.confidence → i ≤ j) := by
  intro d hd
  obtain ⟨g, hg, p, hp, hpd⟩ := mem_nms_iff.1 hd
  have hsne : sortD g.2 ≠ [] := by
    intro h
    rw [greedy, h] at hp
    simp [greedyAux] at hp
  obtain ⟨k, r, hkr⟩ := List.exists_cons_of_ne_nil hsne
  have hpk : p = k := by
    rw [hkr] at hp
    rw [greedy_zero_eq_head] at hp
    exact List.mem_singleton.1 hp
  have hgne : g.2 ≠ [] := by
    intro h
    rw [h] at hkr
    simp [sortD] at hkr
  have hpw : List.Pairwise (fun p q => p.1 < q.1) g.2 := by
    have hsub : g.2.Sublist dets.enum := by
      rw [group_eq_filter hg]
      exact List.filter_sublist _
    exact List.Pairwise.sublist hsub (pairwise_fst_lt_enum dets)
  obtain ⟨k', r', hk'r', hkmem, hmax, hties⟩ := sortD_head_argmax g.2 hgne hpw
  have heq : k' = k := by
    have hkk := hk'r'.symm.trans hkr
    injection hkk
  rw [heq] at hkmem hmax hties
  have hd_eq : d = k.2 := by rw [← hpd, hpk]
  have hkenum := (mem_enum_of_mem_group hg hkmem).1
  have hkcls : k.2.class_name = g.1 := (mem_enum_of_mem_group hg hkmem).2
  refine ⟨k.1, ?_, ?_⟩
  · rw [hd_eq]
    simpa using hkenum
  · intro j e hje hecls
    have hje_g : (j, e) ∈ g.2 := by
      rw [group_eq_filter hg]
      refine List.mem_filter.2 ⟨hje, decide_eq_true ?_⟩
      show e.class_name = g.1
      rw [hecls, hd_eq, hkcls]
    constructor
    · have hle := hmax (j, e) hje_g
      rw [hd_eq]
      exact hle
    · intro hconf
      rw [hd_eq] at hconf
      exact hties (j, e) hje_g hconf

/-- C1: for every detection list in global coordinates and every threshold in
`[0,1]`, classwise NMS returns a subset of its input; no two outputs share a
class while their IoU reaches the threshold; and every suppressed detection
has a kept same-class suppressor whose IoU with it reaches the threshold and
whose confidence is at least the suppressed one's. -/
theorem nms_classwise_contract (dets : List Det) (iou_th : ℚ)
    (h0 : 0 ≤ iou_th) (h1 : iou_th ≤ 1) :
    (∀ d ∈ nms_classwise dets iou_th, d ∈ dets) ∧
    List.Pairwise (fun d e => d.class_name = e.class_name →
      iou_xyxy d.bbox e.bbox < iou_th) (nms_classwise dets iou_th) ∧
    (∀ d ∈ dets, d ∉ nms_classwise dets iou_th →
      ∃ e ∈ nms_classwise dets iou_th, e.class_name = d.class_name ∧
        iou_th ≤ iou_xyxy e.bbox d.bbox ∧ d.confidence ≤ e.confidence) :=
  ⟨nms_subset, nms_pairwise dets iou_th, nms_cover⟩

/-- Witness for C1 at a two-detection input with threshold `1/2`. -/
theorem nms_classwise_contract_witness :
    (0:ℚ) ≤ 1/2 ∧ (1/2:ℚ) ≤ 1 ∧
    ((∀ d ∈ nms_classwise [⟨"0", 9, ⟨0, 0, 10, 10⟩⟩, ⟨"0", 8, ⟨0, 0, 10, 8⟩⟩] (1/2),
        d ∈ [⟨"0", 9, ⟨0, 0, 10, 10⟩⟩, ⟨"0", 8, ⟨0, 0, 10, 8⟩⟩]) ∧
      List.Pairwise (fun d e => d.class_name = e.class_name →
        iou_xyxy d.bbox e.bbox < 1/2)
        (nms_classwise [⟨"0", 9, ⟨0, 0, 10, 10⟩⟩, ⟨"0", 8, ⟨0, 0, 10, 8⟩⟩] (1/2)) ∧
      (∀ d ∈ [⟨"0", 9, ⟨0, 0, 10, 10⟩⟩, ⟨"0", 8, ⟨0, 0, 10, 8⟩⟩],
        d ∉ nms_classwise [⟨"0", 9, ⟨0, 0, 10, 10⟩⟩, ⟨"0", 8, ⟨0, 0, 10, 8⟩⟩] (1/2) →
        ∃ e ∈ nms_classwise [⟨"0", 9, ⟨0, 0, 10, 10⟩⟩, ⟨"0", 8, ⟨0, 0, 10, 8⟩⟩] (1/2),
          e.class_name = d.class_name ∧
          (1/2 : ℚ) ≤ iou_xyxy e.bbox d.bbox ∧ d.confidence ≤ e.confidence)) :=
  ⟨by norm_num, by norm_num,
    nms_classwise_contract [⟨"0", 9, ⟨0, 0, 10, 10⟩⟩, ⟨"0", 8, ⟨0, 0, 10, 8⟩⟩]
      (1/2) (by norm_num) (by norm_num)⟩

/-- Counterexample to C4 as stated: with `iou_th = 0`, two same-class
detections with zero IoU (spatially disjoint boxes) do NOT both survive; the
lower-confidence one is suppressed and only the top one is returned. -/
theorem nms_zero_disjoint_suppressed :
    iou_xyxy ⟨0, 0, 1, 1⟩ ⟨5, 5, 6, 6⟩ = 0 ∧
    nms_classwise [⟨"0", 9, ⟨0, 0, 1, 1⟩⟩, ⟨"0", 8, ⟨5, 5, 6, 6⟩⟩] 0 =
      [⟨"0", 9, ⟨0, 0, 1, 1⟩⟩] := by
  constructor
  · with_unfolding_all decide
  · with_unfolding_all decide

/-- C4 (amended): with `iou_threshold = 0` classwise NMS keeps at most one
detection per class (every other same-class detection is suppressed, touching
or not); with `iou_threshold = 1` a suppressed detection is in exact full
overlap (IoU exactly `1`) with a kept same-class detection; with
`iou_threshold > 1` nothing at all is suppressed (the output is a permutation
of the input); all these threshold values are processed normally, not
rejected. -/
theorem nms_threshold_edge_policy (dets : List Det) (th : ℚ) :
    ((nms_classwise dets 0).map (fun d => d.class_name)).Nodup ∧
    (1 ≤ th → ∀ d ∈ dets, d ∉ nms_classwise dets th →
      ∃ e ∈ nms_classwise dets th, e.class_name = d.class_name ∧
        iou_xyxy e.bbox d.bbox = 1) ∧
    (1 < th → (nms_classwise dets th).Perm dets) :=
  ⟨nms_zero_classes_nodup dets, fun hth => nms_one_le_cover hth,
    fun hth => nms_perm_of_one_lt dets hth⟩

/-- Witness for C4 (amended) at a singleton input with threshold `2`. -/
theorem nms_threshold_edge_policy_witness :
    (1:ℚ) ≤ 2 ∧ (1:ℚ) < 2 ∧
    (∀ d ∈ ([⟨"0", 9, ⟨0, 0, 1, 1⟩⟩] : List Det),
      d ∉ nms_classwise [⟨"0", 9, ⟨0, 0, 1, 1⟩⟩] 2 →
      ∃ e ∈ nms_classwise [⟨"0", 9, ⟨0, 0, 1, 1⟩⟩] 2,
        e.class_name = d.class_name ∧ iou_xyxy e.bbox d.bbox = 1) ∧
    (nms_classwise [⟨"0", 9, ⟨0, 0, 1, 1⟩⟩] 2).Perm [⟨"0", 9, ⟨0, 0, 1, 1⟩⟩] :=
  ⟨by norm_num, by norm_num,
    (nms_threshold_edge_policy [⟨"0", 9, ⟨0, 0, 1, 1⟩⟩] 2).2.1 (by norm_num),
    (nms_threshold_edge_policy [⟨"0", 9, ⟨0, 0, 1, 1⟩⟩] 2).2.2 (by norm_num)⟩

/-- C9: on a non-empty input with `iou_th = 0`, classwise NMS keeps exactly
one detection per distinct class present in the input (class list of the
output has no duplicates and covers exactly the input's classes), and each
kept detection is a classwise confidence maximum, earliest in input order
among ties; every other same-class detection, disjoint or not, is
suppressed. -/
theorem nms_zero_one_per_class (dets : List Det) (hne : dets ≠ []) :
    ((nms_classwise dets 0).map (fun d => d.class_name)).Nodup ∧
    (∀ c, c ∈ (nms_classwise dets 0).map (fun d => d.class_name) ↔
      c ∈ dets.map (fun d => d.class_name)) ∧
    (∀ d ∈ nms_classwise dets 0, ∃ i, (i, d) ∈ dets.enum ∧
      ∀ j e, (j, e) ∈ dets.enum → e.class_name = d.class_name →
        e.confidence ≤ d.confidence ∧ (e.confidence = d.confidence → i ≤ j)) := by
  refine ⟨nms_zero_classes_nodup dets, ?_, nms_zero_argmax dets⟩
  intro c
  constructor
  · intro hc
    obtain ⟨e, he, rfl⟩ := List.mem_map.1 hc
    exact List.mem_map.2 ⟨e, nms_subset e he, rfl⟩
  · intro hc
    obtain ⟨e, he, rfl⟩ := List.mem_map.1 hc
    obtain ⟨k, hk, hkc⟩ := nms_zero_class_present he
    exact List.mem_map.2 ⟨k, hk, hkc⟩

/-- Witness for C9 at a concrete two-detection input. -/
theorem nms_zero_one_per_class_witness :
    ([⟨"0", 9, ⟨0, 0, 1, 1⟩⟩, ⟨"0", 8, ⟨5, 5, 6, 6⟩⟩] : List Det) ≠ [] ∧
    (((nms_classwise [⟨"0", 9, ⟨0, 0, 1, 1⟩⟩, ⟨"0", 8, ⟨5, 5, 6, 6⟩⟩] 0).map
        (fun d => d.class_name)).Nodup ∧
      (∀ c, c ∈ (nms_classwise [⟨"0", 9, ⟨0, 0, 1, 1⟩⟩, ⟨"0", 8, ⟨5, 5, 6, 6⟩⟩] 0).map
          (fun d => d.class_name) ↔
        c ∈ ([⟨"0", 9, ⟨0, 0, 1, 1⟩⟩, ⟨"0", 8, ⟨5, 5, 6, 6⟩⟩] : List Det).map
          (fun d => d.class_name)) ∧
      (∀ d ∈ nms_classwise [⟨"0", 9, ⟨0, 0, 1, 1⟩⟩, ⟨"0", 8, ⟨5, 5, 6, 6⟩⟩] 0,
        ∃ i, (i, d) ∈ ([⟨"0", 9, ⟨0, 0, 1, 1⟩⟩, ⟨"0", 8, ⟨5, 5, 6, 6⟩⟩] : List Det).enum ∧
        ∀ j e, (j, e) ∈ ([⟨"0", 9, ⟨0, 0, 1, 1⟩⟩, ⟨"0", 8, ⟨5, 5, 6, 6⟩⟩] : List Det).enum →
          e.class_name = d.class_name →
          e.confidence ≤ d.confidence ∧ (e.confidence = d.confidence → i ≤ j))) :=
  ⟨List.cons_ne_nil _ _,
    nms_zero_one_per_class [⟨"0", 9, ⟨0, 0, 1, 1⟩⟩, ⟨"0", 8, ⟨5, 5, 6, 6⟩⟩]
      (List.cons_ne_nil _ _)⟩

theorem foldl_add_init (m : List (String × ℕ)) :
    ∀ s : ℕ, m.foldl (fun t p => t + p.2) s = s + sumCounts m := by
  induction m with
  | nil => intro s; simp [sumCounts]
  | cons p rest ih =>
    intro s
    simp only [sumCounts, List.foldl_cons] at *
    rw [ih (s + p.2), ih (0 + p.2)]
    omega

theorem lookupCount_bumpCount_self (m : List (String × ℕ)) (c : String) :
    lookupCount (bumpCount m c) c = lookupCount m c + 1 := by
  induction m with
  | nil => simp [bumpCount, lookupCount]
  | cons q rest ih =>
    obtain ⟨c', n⟩ := q
    by_cases h : c' = c
    · subst h
      simp [bumpCount, lookupCount]
    · simp [bumpCount, lookupCount, h, ih]

theorem lookupCount_bumpCount_ne (m : List (String × ℕ)) (c c'' : String)
    (hne : c ≠ c'') : lookupCount (bumpCount m c) c'' = lookupCount m c'' := by
  induction m with
  | nil => simp [bumpCount, lookupCount, hne]
  | cons q rest ih =>
    obtain ⟨c', n⟩ := q
    by_cases h : c' = c
    · subst h
      simp [bumpCount, lookupCount, hne]
    · simp only [bumpCount, if_neg h, lookupCount]
      by_cases h2 : c' = c''
      · simp [h2]
      · simp [h2, ih]

theorem sumCounts_bumpCount (m : List (String × ℕ)) (c : String) :
    sumCounts (bumpCount m c) = sumCounts m + 1 := by
  induction m with
  | nil => simp [bumpCount, sumCounts]
  | cons q rest ih =>
    obtain ⟨c', n⟩ := q
    by_cases h : c' = c
    · subst h
      have hb : bumpCount ((c', n) :: rest) c' = (c', n + 1) :: rest := by
        simp [bumpCount]
      rw [hb]
      simp only [sumCounts, List.foldl_cons]
      rw [foldl_add_init, foldl_add_init]
      omega
    · simp only [bumpCount, if_neg h, sumCounts, List.foldl_cons]
      rw [foldl_add_init, foldl_add_init]
      have ihs : sumCounts (bumpCount rest c) = sumCounts rest + 1 := ih
      omega

theorem countsOf_append (dets : List Det) (d : Det) :
    countsOf (dets ++ [d]) = bumpCount (countsOf dets) d.class_name := by
  simp [countsOf, List.foldl_append]

theorem lookupCount_countsOf (dets : List Det) (c : String) :
    lookupCount (countsOf dets) c =
      (dets.filter fun d => d.class_name = c).length := by
  induction dets using List.reverseRecOn with
  | nil => simp [countsOf, lookupCount]
  | append_singleton ps d ih =>
    rw [countsOf_append, List.filter_append]
    by_cases h : d.class_name = c
    · rw [h, lookupCount_bumpCount_self, ih]
      simp [h]
    · rw [lookupCount_bumpCount_ne _ _ _ h, ih]
      simp [h]

theorem sumCounts_countsOf (dets : List Det) :
    sumCounts (countsOf dets) = dets.length := by
  induction dets using List.reverseRecOn with
  | nil => simp [countsOf, sumCounts]
  | append_singleton ps d ih =>
    rw [countsOf_append, sumCounts_bumpCount, ih]
    simp

/-- C6: IoU is symmetric, always within `[0,1]`, equals `1` for a
non-degenerate box against itself, and equals `0` whenever the rectangles do
not intersect or the union area is `0`. -/
theorem iou_xyxy_algebra (a b : Box) :
    iou_xyxy a b = iou_xyxy b a ∧
    0 ≤ iou_xyxy a b ∧ iou_xyxy a b ≤ 1 ∧
    (a.x1 < a.x2 → a.y1 < a.y2 → iou_xyxy a a = 1) ∧
    (min a.x2 b.x2 ≤ max a.x1 b.x1 ∨ min a.y2 b.y2 ≤ max a.y1 b.y1 →
      iou_xyxy a b = 0) ∧
    (boxArea a + boxArea b - interArea a b = 0 → iou_xyxy a b = 0) :=
  ⟨iou_symm a b, iou_nonneg a b, iou_le_one a b,
    fun hx hy => iou_self a hx hy, iou_of_disjoint a b, iou_of_union_zero a b⟩

/-- Witness for C6: a disjoint pair of boxes for the generic parts, and a
fully degenerate pair for the zero-union part. -/
theorem iou_xyxy_algebra_witness :
    ((0:ℚ) < 2 ∧ min (2:ℚ) 4 ≤ max 0 3 ∧
      boxArea ⟨0, 0, 0, 0⟩ + boxArea ⟨0, 0, 0, 0⟩ -
        interArea ⟨0, 0, 0, 0⟩ ⟨0, 0, 0, 0⟩ = 0) ∧
    iou_xyxy ⟨0, 0, 2, 2⟩ ⟨3, 0, 4, 1⟩ = iou_xyxy ⟨3, 0, 4, 1⟩ ⟨0, 0, 2, 2⟩ ∧
    0 ≤ iou_xyxy ⟨0, 0, 2, 2⟩ ⟨3, 0, 4, 1⟩ ∧
    iou_xyxy ⟨0, 0, 2, 2⟩ ⟨3, 0, 4, 1⟩ ≤ 1 ∧
    iou_xyxy ⟨0, 0, 2, 2⟩ ⟨0, 0, 2, 2⟩ = 1 ∧
    iou_xyxy ⟨0, 0, 2, 2⟩ ⟨3, 0, 4, 1⟩ = 0 ∧
    iou_xyxy ⟨0, 0, 0, 0⟩ ⟨0, 0, 0, 0⟩ = 0 :=
  ⟨⟨by norm_num, by with_unfolding_all decide, by with_unfolding_all decide⟩,
    (iou_xyxy_algebra ⟨0, 0, 2, 2⟩ ⟨3, 0, 4, 1⟩).1,
    (iou_xyxy_algebra ⟨0, 0, 2, 2⟩ ⟨3, 0, 4, 1⟩).2.1,
    (iou_xyxy_algebra ⟨0, 0, 2, 2⟩ ⟨3, 0, 4, 1⟩).2.2.1,
    (iou_xyxy_algebra ⟨0, 0, 2, 2⟩ ⟨3, 0, 4, 1⟩).2.2.2.1
      (by norm_num) (by norm_num),
    (iou_xyxy_algebra ⟨0, 0, 2, 2⟩ ⟨3, 0, 4, 1⟩).2.2.2.2.1
      (by with_unfolding_all decide),
    (iou_xyxy_algebra ⟨0, 0, 0, 0⟩ ⟨0, 0, 0, 0⟩).2.2.2.2.2
      (by with_unfolding_all decide)⟩

/-- C7: in the packaged payload, the counts entry of every class equals the
number of detections of that class, the total equals the sum of the counts
values, and the total equals the length of the packaged detections list. -/
theorem package_counts_consistent (W H : ℕ) (dets : List Det) :
    (∀ c, lookupCount (package W H dets).counts c =
      (dets.filter fun d => d.class_name = c).length) ∧
    (package W H dets).total = sumCounts (package W H dets).counts ∧
    (package W H dets).total = (package W H dets).detections.length := by
  refine ⟨fun c => lookupCount_countsOf dets c, rfl, ?_⟩
  show sumCounts (countsOf dets) = (dets.map _).length
  rw [List.length_map, sumCounts_countsOf]

/-- C8: translation shifts the box corners by the tile origin, passes class
and confidence through unchanged, and translating by the negated origin
recovers the original detection exactly. -/
theorem translate_roundtrip (left top : ℤ) (d : Det) :
    (translate left top d).class_name = d.class_name ∧
    (translate left top d).confidence = d.confidence ∧
    (translate left top d).bbox =
      ⟨d.bbox.x1 + left, d.bbox.y1 + top, d.bbox.x2 + left, d.bbox.y2 + top⟩ ∧
    translate (-left) (-top) (translate left top d) = d := by
  obtain ⟨c, conf, x1, y1, x2, y2⟩ := d
  refine ⟨rfl, rfl, rfl, ?_⟩
  simp only [translate, Det.mk.injEq, Box.mk.injEq, true_and, and_true]
  push_cast
  and_intros <;> ring

theorem stepOf_pos (tile_size : ℤ) (overlap : ℚ) : 1 ≤ stepOf tile_size overlap :=
  le_max_left _ _

theorem ratTrunc_eq_floor {q : ℚ} (h : 0 ≤ q) : ratTrunc q = ⌊q⌋ := if_pos h

theorem stepOf_le_tile_size {tile_size : ℤ} {overlap : ℚ} (hts : 1 ≤ tile_size)
    (h0 : 0 ≤ overlap) (h1 : overlap < 1) : stepOf tile_size overlap ≤ tile_size := by
  apply max_le hts
  have hq : (0:ℚ) ≤ (tile_size : ℚ) * (1 - overlap) := by
    apply mul_nonneg
    · exact_mod_cast le_trans zero_le_one hts
    · linarith
  rw [ratTrunc_eq_floor hq]
  have hle : (tile_size : ℚ) * (1 - overlap) ≤ ((tile_size : ℤ) : ℚ) := by
    have h2 : (1 - overlap) ≤ 1 := by linarith
    have h3 : (0:ℚ) ≤ (tile_size : ℚ) := by exact_mod_cast le_trans zero_le_one hts
    calc (tile_size : ℚ) * (1 - overlap) ≤ (tile_size : ℚ) * 1 :=
          mul_le_mul_of_nonneg_left h2 h3
      _ = (tile_size : ℚ) := mul_one _
  calc ⌊(tile_size : ℚ) * (1 - overlap)⌋ ≤ ⌊((tile_size : ℤ) : ℚ)⌋ :=
        Int.floor_le_floor hle
    _ = tile_size := Int.floor_intCast _

theorem stepOf_one_of_overlap_ge_one {tile_size : ℤ} {overlap : ℚ}
    (hts : 0 ≤ tile_size) (hov : 1 ≤ overlap) : stepOf tile_size overlap = 1 := by
  have hq : (tile_size : ℚ) * (1 - overlap) ≤ 0 := by
    apply mul_nonpos_of_nonneg_of_nonpos
    · exact_mod_cast hts
    · linarith
  have htr : ratTrunc ((tile_size : ℚ) * (1 - overlap)) ≤ 0 := by
    unfold ratTrunc
    split
    · calc ⌊(tile_size : ℚ) * (1 - overlap)⌋ ≤ ⌊(0:ℚ)⌋ := Int.floor_le_floor hq
        _ = 0 := by simp
    · calc ⌈(tile_size : ℚ) * (1 - overlap)⌉ ≤ ⌈(0:ℚ)⌉ := Int.ceil_le_ceil hq
        _ = 0 := by simp
  unfold stepOf
  exact max_eq_left (by linarith)

theorem mem_gridStarts {bound step x : ℕ} :
    x ∈ gridStarts bound step ↔ x < bound ∧ x % step = 0 := by
  simp [gridStarts, List.mem_filter, List.mem_range]

theorem mem_tiles {W H : ℕ} {ts : ℤ} {ov : ℚ} {t : Tile} :
    t ∈ tiles W H ts ov ↔
      ∃ (top : ℕ) (left : ℕ),
        top ∈ gridStarts H (stepOf ts ov).toNat ∧
        left ∈ gridStarts W (stepOf ts ov).toNat ∧
        ¬(min ((left : ℤ) + ts) (W : ℤ) ≤ (left : ℤ) ∨
          min ((top : ℤ) + ts) (H : ℤ) ≤ (top : ℤ)) ∧
        t = ⟨left, top, min ((left : ℤ) + ts) (W : ℤ),
          min ((top : ℤ) + ts) (H : ℤ)⟩ := by
  constructor
  · intro ht
    obtain ⟨top, htop, hmem⟩ := List.mem_flatMap.1 ht
    obtain ⟨left, hleft, hsome⟩ := List.mem_filterMap.1 hmem
    by_cases hc : min ((left : ℤ) + ts) (W : ℤ) ≤ (left : ℤ) ∨
        min ((top : ℤ) + ts) (H : ℤ) ≤ (top : ℤ)
    · rw [if_pos hc] at hsome
      exact absurd hsome (by simp)
    · rw [if_neg hc] at hsome
      exact ⟨top, left, htop, hleft, hc, (Option.some_inj.1 hsome).symm⟩
  · rintro ⟨top, left, htop, hleft, hc, rfl⟩
    refine List.mem_flatMap.2 ⟨top, htop, ?_⟩
    refine List.mem_filterMap.2 ⟨left, hleft, ?_⟩
    rw [if_neg hc]

theorem tiles_eq_nil_of_nonpos (W H : ℕ) {ts : ℤ} (ov : ℚ) (hts : ts ≤ 0) :
    tiles W H ts ov = [] := by
  unfold tiles
  apply List.flatMap_eq_nil_iff.2
  intro top _
  apply List.filterMap_eq_nil_iff.2
  intro left _
  rw [if_pos]
  left
  calc min ((left : ℤ) + ts) (W : ℤ) ≤ (left : ℤ) + ts := min_le_left _ _
    _ ≤ (left : ℤ) := by linarith

theorem run_inference_empty_of_nonpos (detect : Tile → List Det) (W H : ℕ)
    (tile : TileArg) {ts : ℤ} (ov nms_iou : ℚ) (hts : ts ≤ 0)
    (hflag : tileFlag tile W H ts = true) :
    run_inference detect W H tile ts ov nms_iou =
      ⟨W, H, [], [], 0⟩ := by
  unfold run_inference
  rw [if_pos hflag, tiles_eq_nil_of_nonpos W H ov hts]
  rfl

/-- C2: for positive image dimensions, `tile_size ≥ 1` and overlap in
`[0,1)`, the union of the scheduled tile rectangles equals exactly the image
rectangle `[0,W) x [0,H)`: every pixel is covered and no tile extends past
the image. -/
theorem tiles_cover_exact (W H : ℕ) (ts : ℤ) (ov : ℚ)
    (hW : 1 ≤ W) (hH : 1 ≤ H) (hts : 1 ≤ ts) (h0 : 0 ≤ ov) (h1 : ov < 1) :
    {p : ℤ × ℤ | ∃ t ∈ tiles W H ts ov,
        t.left ≤ p.1 ∧ p.1 < t.right ∧ t.top ≤ p.2 ∧ p.2 < t.bottom} =
      Set.Ico (0:ℤ) (W:ℤ) ×ˢ Set.Ico (0:ℤ) (H:ℤ) := by
  apply Set.ext
  rintro ⟨x, y⟩
  simp only [Set.mem_setOf_eq, Set.mem_prod, Set.mem_Ico]
  constructor
  · rintro ⟨t, ht, hx1, hx2, hy1, hy2⟩
    obtain ⟨top, left, htop, hleft, hnd, rfl⟩ := mem_tiles.1 ht
    have hlw := (mem_gridStarts.1 hleft).1
    have hth := (mem_gridStarts.1 htop).1
    dsimp only at hx1 hx2 hy1 hy2
    omega
  · rintro ⟨⟨hx0, hxW⟩, hy0, hyH⟩
    have hs_pos := stepOf_pos ts ov
    have hs_cast : ((stepOf ts ov).toNat : ℤ) = stepOf ts ov :=
      Int.toNat_of_nonneg (by linarith)
    have hsle : ((stepOf ts ov).toNat : ℤ) ≤ ts := by
      rw [hs_cast]
      exact stepOf_le_tile_size hts h0 h1
    set s := (stepOf ts ov).toNat with hs_def
    have hs1 : 1 ≤ s := by omega
    have hxd := Nat.mod_add_div' x.toNat s
    have hxm : x.toNat % s < s := Nat.mod_lt _ (by omega)
    have hyd := Nat.mod_add_div' y.toNat s
    have hym : y.toNat % s < s := Nat.mod_lt _ (by omega)
    refine ⟨⟨((x.toNat / s * s : ℕ) : ℤ), ((y.toNat / s * s : ℕ) : ℤ),
        min (((x.toNat / s * s : ℕ) : ℤ) + ts) (W : ℤ),
        min (((y.toNat / s * s : ℕ) : ℤ) + ts) (H : ℤ)⟩,
      mem_tiles.2 ⟨y.toNat / s * s, x.toNat / s * s,
        mem_gridStarts.2 ⟨by omega, Nat.mul_mod_left _ _⟩,
        mem_gridStarts.2 ⟨by omega, Nat.mul_mod_left _ _⟩, by omega, rfl⟩,
      by dsimp only; omega, by dsimp only; omega,
      by dsimp only; omega, by dsimp only; omega⟩

/-- Witness for C2 at the concrete size W = H = 2, tile_size 1, overlap 0. -/
theorem tiles_cover_exact_witness :
    (1 ≤ 2) ∧ ((1:ℤ) ≤ 1) ∧ ((0:ℚ) ≤ 0) ∧ ((0:ℚ) < 1) ∧
    {p : ℤ × ℤ | ∃ t ∈ tiles 2 2 1 0,
        t.left ≤ p.1 ∧ p.1 < t.right ∧ t.top ≤ p.2 ∧ p.2 < t.bottom} =
      Set.Ico (0:ℤ) ((2:ℕ):ℤ) ×ˢ Set.Ico (0:ℤ) ((2:ℕ):ℤ) :=
  ⟨by norm_num, le_refl 1, le_refl 0, by norm_num,
    tiles_cover_exact 2 2 1 0 (by norm_num) (by norm_num) (le_refl 1)
      (le_refl 0) (by norm_num)⟩

/-- Counterexample to C3: the stride uses truncation (Python `int()`), not
rounding to the nearest integer: at tile_size 5 and overlap 5/8 the product
is 15/8 = 1.875, the code computes stride 1 while the claimed rounding
formula gives 2. -/
theorem stride_not_rounded :
    stepOf 5 (5/8) = 1 ∧ max 1 (round (((5:ℤ) : ℚ) * (1 - 5/8))) = 2 ∧
    stepOf 5 (5/8) ≠ max 1 (round (((5:ℤ) : ℚ) * (1 - 5/8))) := by
  refine ⟨?_, ?_, ?_⟩ <;> with_unfolding_all decide

/-- C3 (amended): on the legal range the stride equals
`max(1, ⌊tile_size * (1 - overlap)⌋)`: the product is truncated toward zero
(the floor, since the product is nonnegative there) before the floor of 1 is
applied, not rounded to the nearest integer. -/
theorem stride_floor_formula (ts : ℤ) (ov : ℚ) (h0 : 0 ≤ ov) (h1 : ov < 1)
    (hts : 1 ≤ ts) :
    stepOf ts ov = max 1 ⌊(ts : ℚ) * (1 - ov)⌋ := by
  unfold stepOf
  rw [ratTrunc_eq_floor]
  apply mul_nonneg
  · exact_mod_cast le_trans zero_le_one hts
  · linarith

/-- Witness for C3 (amended) at tile_size 5, overlap 5/8. -/
theorem stride_floor_formula_witness :
    ((0:ℚ) ≤ 5/8) ∧ ((5/8:ℚ) < 1) ∧ ((1:ℤ) ≤ 5) ∧
    stepOf 5 (5/8) = max 1 ⌊((5:ℤ) : ℚ) * (1 - 5/8)⌋ :=
  ⟨by norm_num, by norm_num, by norm_num,
    stride_floor_formula 5 (5/8) (by norm_num) (by norm_num) (by norm_num)⟩

/-- Counterexample to C5: a degenerate configuration (tile_size 0 with
tiling forced on) is not rejected before scheduling: run_inference schedules
zero tiles and returns a normal empty payload, even though the detector
oracle would report a detection on any region it were given. -/
theorem degenerate_config_not_rejected :
    tiles 4 4 0 0 = [] ∧
    run_inference (fun _ => [⟨"0", 1, ⟨0, 0, 1, 1⟩⟩]) 4 4 (TileArg.b true)
      0 0 (1/2) = ⟨4, 4, [], [], 0⟩ := by
  constructor
  · with_unfolding_all decide
  · with_unfolding_all decide

/-- C5 (amended): run_inference performs no validation of degenerate
configurations.  With `tile_size ≤ 0` every candidate tile is degenerate, the
scheduled grid is empty, and a forced-tiling run silently returns the empty
payload without consulting the detector; with `overlap ≥ 1` (and
`tile_size ≥ 0`) the stride is silently clamped to 1 instead of the
configuration being rejected. -/
theorem degenerate_config_behavior (detect : Tile → List Det) (W H : ℕ)
    (tile : TileArg) (ts : ℤ) (ov nms_iou : ℚ) :
    (ts ≤ 0 → tiles W H ts ov = [] ∧
      (tileFlag tile W H ts = true →
        run_inference detect W H tile ts ov nms_iou = ⟨W, H, [], [], 0⟩)) ∧
    (0 ≤ ts → 1 ≤ ov → stepOf ts ov = 1) :=
  ⟨fun hts => ⟨tiles_eq_nil_of_nonpos W H ov hts,
      fun hflag =>
        run_inference_empty_of_nonpos detect W H tile ov nms_iou hts hflag⟩,
    fun hts hov => stepOf_one_of_overlap_ge_one hts hov⟩

/-- Witness for C5 (amended) at tile_size 0, overlap 2, forced tiling. -/
theorem degenerate_config_behavior_witness :
    ((0:ℤ) ≤ 0) ∧ ((1:ℚ) ≤ 2) ∧ tileFlag (TileArg.b true) 3 3 0 = true ∧
    tiles 3 3 0 2 = [] ∧
    run_inference (fun _ => []) 3 3 (TileArg.b true) 0 2 0 =
      ⟨3, 3, [], [], 0⟩ ∧
    stepOf 0 2 = 1 :=
  ⟨le_refl 0, by norm_num, rfl,
    ((degenerate_config_behavior (fun _ => []) 3 3 (TileArg.b true) 0 2 0).1
      (le_refl 0)).1,
    ((degenerate_config_behavior (fun _ => []) 3 3 (TileArg.b true) 0 2 0).1
      (le_refl 0)).2 rfl,
    (degenerate_config_behavior (fun _ => []) 3 3 (TileArg.b true) 0 2 0).2
      (le_refl 0) (by norm_num)⟩

/-- C10: with tiling forced on (tile equal to "1", "true" or "yes", or a
truthy non-string) and `tile_size ≤ 0`, run_inference raises no error from
scheduling: every candidate tile is degenerate and skipped, the scheduled
tile list is empty, the detector is never invoked (the same result is
returned for every detector oracle), and the returned payload has an empty
detections list, empty counts, and total 0. -/
theorem forced_tiling_degenerate_empty (detect : Tile → List Det) (W H : ℕ)
    (tile : TileArg) (ts : ℤ) (ov nms_iou : ℚ)
    (hforce : tile = TileArg.s "1" ∨ tile = TileArg.s "true" ∨
      tile = TileArg.s "yes" ∨ tile = TileArg.b true)
    (hts : ts ≤ 0) :
    tileFlag tile W H ts = true ∧
    tiles W H ts ov = [] ∧
    run_inference detect W H tile ts ov nms_iou = ⟨W, H, [], [], 0⟩ := by
  have hflag : tileFlag tile W H ts = true := by
    rcases hforce with rfl | rfl | rfl | rfl
    · have hl : strLower "1" = "1" := by with_unfolding_all decide
      simp [tileFlag, hl]
    · have hl : strLower "true" = "true" := by with_unfolding_all decide
      simp [tileFlag, hl]
    · have hl : strLower "yes" = "yes" := by with_unfolding_all decide
      simp [tileFlag, hl]
    · rfl
  exact ⟨hflag, tiles_eq_nil_of_nonpos W H ov hts,
    run_inference_empty_of_nonpos detect W H tile ov nms_iou hts hflag⟩

/-- Witness for C10 with the mode string "true" and tile_size 0. -/
theorem forced_tiling_degenerate_empty_witness :
    (TileArg.s "true" = TileArg.s "1" ∨ TileArg.s "true" = TileArg.s "true" ∨
      TileArg.s "true" = TileArg.s "yes" ∨ TileArg.s "true" = TileArg.b true) ∧
    ((0:ℤ) ≤ 0) ∧
    (tileFlag (TileArg.s "true") 5 5 0 = true ∧
      tiles 5 5 0 (1/5) = [] ∧
      run_inference (fun _ => [⟨"0", 1, ⟨0, 0, 1, 1⟩⟩]) 5 5
        (TileArg.s "true") 0 (1/5) (1/2) = ⟨5, 5, [], [], 0⟩) :=
  ⟨Or.inr (Or.inl rfl), le_refl 0,
    forced_tiling_degenerate_empty (fun _ => [⟨"0", 1, ⟨0, 0, 1, 1⟩⟩]) 5 5
      (TileArg.s "true") 0 (1/5) (1/2) (Or.inr (Or.inl rfl)) (le_refl 0)⟩

end Detection
